import Mathlib

/-!
# mstr: split, join, replace, trim, escape and quote

A shallow embedding of `mstr.hpp`.  A string (`std::basic_string<T_CHAR>`) is a
list of code units over an arbitrary unit type `α` with decidable equality; a
container of strings (`std::vector<std::string>`) is a list of such lists.
`size_t` positions are natural numbers and `npos` is `none`.

Loops whose exit depends on the data (`while (k != npos)` in `mstr_split`,
`for (;;)` in `mstr_replace`) take a fuel argument that bounds the number of
times the loop head is evaluated; `none` means the fuel ran out before the loop
exited.
-/

namespace Mstr

variable {α : Type} [DecidableEq α]

/-! ## The `std::basic_string` members used by the library -/

/-- Scan for `std::basic_string::find`: `s` is the text from position `k` on;
the answer is the lowest position at which `pat` is a prefix of what is left.
An empty `pat` matches at once, also at the end of the text. -/
def findAux (pat : List α) : List α → Nat → Option Nat
  | [], k => if pat.isPrefixOf [] then some k else none
  | c :: cs, k => if pat.isPrefixOf (c :: cs) then some k else findAux pat cs (k + 1)

/-- The member `str.find(pat, pos)`: the lowest `k ≥ pos` with
`str.substr(k, pat.size()) == pat`, and `npos` (`none`) when there is none or
when `pos > str.size()`. -/
def find (str pat : List α) (pos : Nat) : Option Nat :=
  if pos ≤ str.length then findAux pat (str.drop pos) pos else none

/-- The member `str.substr(pos, n)` for `pos ≤ str.size()`. -/
def substr (str : List α) (pos n : Nat) : List α := (str.drop pos).take n

/-- The member `str.substr(pos)` for `pos ≤ str.size()`. -/
def substrFrom (str : List α) (pos : Nat) : List α := str.drop pos

/-- The member `str.replace(pos, n, to)` for `pos + n ≤ str.size()`. -/
def strReplace (str : List α) (pos n : Nat) (toS : List α) : List α :=
  str.take pos ++ toS ++ str.drop (pos + n)

/-- Scan for `find_first_not_of`: `i` is the position of the head of the list. -/
def firstNotOfAux (spaces : List α) : List α → Nat → Option Nat
  | [], _ => none
  | c :: cs, i => if c ∈ spaces then firstNotOfAux spaces cs (i + 1) else some i

/-- The member `str.find_first_not_of(spaces)`: the lowest position whose unit is
not one of `spaces`, `npos` when every unit is. -/
def find_first_not_of (str spaces : List α) : Option Nat := firstNotOfAux spaces str 0

/-- Scan for `find_last_not_of`: `i` is the position of the head of the list. -/
def lastNotOfAux (spaces : List α) : List α → Nat → Option Nat
  | [], _ => none
  | c :: cs, i =>
    match lastNotOfAux spaces cs (i + 1) with
    | some j => some j
    | none => if c ∈ spaces then none else some i

/-- The member `str.find_last_not_of(spaces)`: the highest position whose unit is
not one of `spaces`, `npos` when every unit is. -/
def find_last_not_of (str spaces : List α) : Option Nat := lastNotOfAux spaces str 0

/-! ## split and join -/

/-- The member `container.clear()`: the new content of the container. -/
def vecClear (_container : List (List α)) : List (List α) := []

/-- The loop `while (k != npos) { push_back(substr(i, k - i)); i = k + sep.size();
k = find(sep, i); }` of `mstr_split`, followed by `push_back(substr(i))`. -/
def splitLoop (str sep : List α) : Nat → Nat → Option Nat → List (List α) → Option (List (List α))
  | 0, _, _, _ => none
  | _ + 1, i, none, container => some (container ++ [substrFrom str i])
  | fuel + 1, i, some k, container =>
    splitLoop str sep fuel (k + sep.length) (find str sep (k + sep.length))
      (container ++ [substr str i (k - i)])

/-- The loop `for (i = 0; i < str.size(); ++i) push_back(string(1, str[i]))` of the
empty-separator branch of `mstr_split`. -/
def splitUnits (str : List α) (container : List (List α)) : List (List α) :=
  str.foldl (fun acc ch => acc ++ [[ch]]) container

/-- The function `mstr_split(container, str, sep)`.  `noSpecialHandling` says
whether `MSTR_SPLIT_NO_SPECIAL_HANDLING` is defined; `container` is the previous
content of the output container.  The result is the new content of the container
and the returned `container.size()`. -/
def mstr_split (noSpecialHandling : Bool) (fuel : Nat) (container : List (List α))
    (str sep : List α) : Option (List (List α) × Nat) :=
  let cleared : List (List α) := vecClear container
  if !noSpecialHandling && sep.isEmpty then
    let c := splitUnits str cleared
    some (c, c.length)
  else
    (splitLoop str sep fuel 0 (find str sep 0) cleared).map (fun c => (c, c.length))

/-- The function `mstr_join(container, sep)`. -/
def mstr_join (container : List (List α)) (sep : List α) : List α :=
  match container with
  | [] => []
  | first :: rest => rest.foldl (fun result it => result ++ sep ++ it) first

/-! ## replace -/

/-- The loop `for (;;)` of `mstr_replace`, from the state `(str, i, ret)`. -/
def replaceLoop (fromS toS : List α) : Nat → List α → Nat → Nat → Option (List α × Nat)
  | 0, _, _, _ => none
  | fuel + 1, str, i, ret =>
    match find str fromS i with
    | none => some (str, ret)
    | some k =>
      replaceLoop fromS toS fuel (strReplace str k fromS.length toS) (k + toS.length) (ret + 1)

/-- The function `mstr_replace(str, from, to)`, with `fromS` for `from` and `toS`
for `to`: the new value of `str` and the returned number of replacements. -/
def mstr_replace (fuel : Nat) (str fromS toS : List α) : Option (List α × Nat) :=
  replaceLoop fromS toS fuel str 0 0

/-! ## trim -/

/-- The function `mstr_trim(str, spaces)`: the new value of `str`. -/
def mstr_trim (str spaces : List α) : List α :=
  match find_first_not_of str spaces, find_last_not_of str spaces with
  | some i, some j => substr str i (j - i + 1)
  | _, _ => []

/-- The function `mstr_trim_left(str, spaces)`: the new value of `str`. -/
def mstr_trim_left (str spaces : List α) : List α :=
  match find_first_not_of str spaces with
  | none => []
  | some i => substrFrom str i

/-- The function `mstr_trim_right(str, spaces)`: the new value of `str`. -/
def mstr_trim_right (str spaces : List α) : List α :=
  match find_last_not_of str spaces with
  | none => []
  | some j => substr str 0 (j + 1)

/-! ## Reference notions used to state what the loops compute -/

/-- Reference splitter on what is left of the text: cut at the first occurrence
of `sep`, then go on after it.  Used to state what the loops compute. -/
def splitRef (sep : List α) (s : List α) : List (List α) :=
  match findAux sep s 0 with
  | none => [s]
  | some d =>
    if _h : 0 < sep.length ∧ 0 < s.length then
      s.take d :: splitRef sep (s.drop (d + sep.length))
    else [s]
termination_by s.length
decreasing_by
  simp only [List.length_drop]
  omega

/-- Number of occurrences of `sep` in the text in the sense of the glossary: the
positions at which `sep` exactly matches a contiguous run of the text, whether
or not two of them overlap. -/
def occurrences (sep : List α) : List α → Nat
  | [] => if sep.isPrefixOf [] then 1 else 0
  | c :: cs => (if sep.isPrefixOf (c :: cs) then 1 else 0) + occurrences sep cs

/-- Number of occurrences of `sep` met by one left-to-right scan that, after a
match, skips the matched units: `skip` is the number of units still covered by
the last match. -/
def scanCount (sep : List α) : List α → Nat → Nat
  | [], _ => 0
  | c :: cs, 0 =>
    if sep.isPrefixOf (c :: cs) then 1 + scanCount sep cs (sep.length - 1)
    else scanCount sep cs 0
  | _ :: cs, skip + 1 => scanCount sep cs skip

/-! ## escape and quote

The code units of a string are given by their bit pattern, a natural number
below `2 ^ (8 * sizeof(T_CHAR))`.  Whether those patterns stand for signed or
unsigned values is a property of the character type: plain `char` is signed or
unsigned according to the platform, `wchar_t` is an unsigned 2-byte type on
Windows and a signed 4-byte type elsewhere, `char16_t` and `char32_t` are
unsigned. -/

/-- The values `sizeof(T_CHAR)` for which `mstr_escape` has a numeric escape.
The last branch of the routine, `assert(0)`, is for any other size and is not
represented. -/
inductive Width where
  | one
  | two
  | four

/-- The number `sizeof(T_CHAR)`. -/
def Width.bytes : Width → Nat
  | .one => 1
  | .two => 2
  | .four => 4

/-- A character type `T_CHAR`: its size and whether it is a signed type. -/
structure CharT where
  width : Width
  isSigned : Bool

/-- The number of bits of a unit of type `T`. -/
def CharT.bits (T : CharT) : Nat := 8 * T.width.bytes

/-- The numeric value of the unit with bit pattern `u`, as the comparisons of the
routine see it after integral promotion: two's complement for a signed type. -/
def CharT.value (T : CharT) (u : Nat) : Int :=
  if T.isSigned && decide (2 ^ (T.bits - 1) ≤ u) then (u : Int) - 2 ^ T.bits else (u : Int)

/-- Conversion of an integer to the type `T`: its bit pattern, modulo `2 ^ bits`. -/
def CharT.ofInt (T : CharT) (v : Int) : Nat := (v % 2 ^ T.bits).toNat

/-- The function `mstr_oct_ch(str, ch)`: the new value of `str`.  `ch` is the
`unsigned char` argument; each `ch >>= 7` is stored back into an `unsigned char`. -/
def mstr_oct_ch (ch : Nat) : List Nat :=
  let str : List Nat := []
  let str := str ++ [48 + (ch &&& 7)]
  let ch := (ch >>> 7) % 256
  let str := str ++ [48 + (ch &&& 7)]
  let ch := (ch >>> 7) % 256
  let str := str ++ [48 + (ch &&& 7)]
  str.reverse

/-- The loop `for (i = 0; i < len; ++i)` of `mstr_hex_ch`, from the state
`(ch, str)` with `n` passes left: `value = ch & 0xF`, one digit is appended, and
`ch >>= 8` when `sizeof(T_CHAR) > 1` (an arithmetic shift for a signed type). -/
def hexLoop (T : CharT) : Nat → Nat → List Nat → List Nat
  | 0, _, str => str
  | n + 1, ch, str =>
    let value := ch &&& 0xF
    let str := if value ≥ 10 then str ++ [65 + value - 10] else str ++ [48 + value]
    let ch := if T.width.bytes > 1 then T.ofInt (T.value ch >>> 8) else ch
    hexLoop T n ch str

/-- The function `mstr_hex_ch(str, ch, len)`: the new value of `str`. -/
def mstr_hex_ch (T : CharT) (ch : Nat) (len : Nat) : List Nat :=
  (hexLoop T len ch []).reverse

/-- The units that one pass of the loop of `mstr_escape` appends to `ret` for the
unit `ch`: the `switch` and its `default` branch.  `escapeNonAscii` says whether
`MSTR_ESCAPE_NON_ASCII` is defined.  Units are written by their codes: 34 is the
double quote, 92 the backslash, 48 the digit 0, 117 and 85 the letters u and U. -/
def escapeUnit (T : CharT) (escapeNonAscii : Bool) (ch : Nat) : List Nat :=
  if ch = 34 then [34, 34]
  else if ch = 92 then [92, 92]
  else if ch = 0 then [92, 48]
  else if ch = 7 then [92, 97]
  else if ch = 8 then [92, 98]
  else if ch = 12 then [92, 102]
  else if ch = 10 then [92, 110]
  else if ch = 13 then [92, 114]
  else if ch = 9 then [92, 116]
  else if ch = 11 then [92, 118]
  else if decide (T.value ch < 0x20) || (escapeNonAscii && decide (T.value ch ≥ 0x7F)) then
    match T.width with
    | .one => [92] ++ mstr_oct_ch (ch % 256)
    | .two => [92, 117] ++ mstr_hex_ch T ch (T.width.bytes * 2)
    | .four => [92, 85] ++ mstr_hex_ch T ch (T.width.bytes * 2)
  else [ch]

/-- The loop `for (i = 0; i < src.size(); ++i)` of `mstr_escape`: `ret` after the
units of `src` have been gone through. -/
def escapeLoop (T : CharT) (escapeNonAscii : Bool) (src : List Nat) (ret : List Nat) : List Nat :=
  src.foldl (fun acc ch => acc ++ escapeUnit T escapeNonAscii ch) ret

/-- The two-argument `mstr_escape(ret, src)`: the new value of `ret`, whose
previous content is cleared first. -/
def mstr_escape_into (T : CharT) (escapeNonAscii : Bool) (_ret src : List Nat) : List Nat :=
  escapeLoop T escapeNonAscii src []

/-- The value-returning `mstr_escape(src)`. -/
def mstr_escape (T : CharT) (escapeNonAscii : Bool) (src : List Nat) : List Nat :=
  mstr_escape_into T escapeNonAscii [] src

/-- The two-argument `mstr_quote(dest, str)`: the new value of `dest`. -/
def mstr_quote_into (T : CharT) (escapeNonAscii : Bool) (dest str : List Nat) : List Nat :=
  dest ++ [34] ++ mstr_escape T escapeNonAscii str ++ [34]

/-- The value-returning `mstr_quote(src)`. -/
def mstr_quote (T : CharT) (escapeNonAscii : Bool) (src : List Nat) : List Nat :=
  mstr_quote_into T escapeNonAscii [] src

/-- The digit character for a digit value below 16: `0`..`9`, then `A`..`F`. -/
def specDigit (d : Nat) : Nat := if d < 10 then 48 + d else 65 + (d - 10)

/-- The numeral the specification asks of a numeric escape: the `len` digits of
`v` in base `base`, most significant first, padded with zeros. -/
def specNumeral (base len v : Nat) : List Nat :=
  ((List.range len).reverse).map (fun i => specDigit (v / base ^ i % base))

/-! ## `find`: what a hit and a miss mean -/

theorem findAux_none {pat : List α} : ∀ {s : List α} {k : Nat},
    findAux pat s k = none → ∀ p, ¬ pat <+: s.drop p := by
  intro s
  induction s with
  | nil =>
    intro k h p hp
    simp [findAux] at h
    simp at hp
    exact h hp
  | cons c cs ih =>
    intro k h p hp
    simp only [findAux] at h
    split at h
    · simp at h
    · rename_i hn
      cases p with
      | zero => simp at hp; simp [hp] at hn
      | succ p => exact ih h p (by simpa using hp)

theorem findAux_some {pat : List α} : ∀ {s : List α} {k r : Nat},
    findAux pat s k = some r →
      ∃ d, r = k + d ∧ d ≤ s.length ∧ pat <+: s.drop d ∧ ∀ p, p < d → ¬ pat <+: s.drop p := by
  intro s
  induction s with
  | nil =>
    intro k r h
    simp only [findAux] at h
    split at h
    · rename_i hp
      refine ⟨0, by simpa using h.symm, by simp, by simpa using hp, by simp⟩
    · simp at h
  | cons c cs ih =>
    intro k r h
    simp only [findAux] at h
    split at h
    · rename_i hp
      refine ⟨0, by simpa using h.symm, by simp, by simpa using hp, by simp⟩
    · rename_i hn
      obtain ⟨d, hr, hd, hpre, hmin⟩ := ih h
      refine ⟨d + 1, by omega, by simp; omega, by simpa using hpre, ?_⟩
      intro p hp
      cases p with
      | zero => simpa using hn
      | succ p => simpa using hmin p (by omega)

theorem findAux_shift (pat : List α) : ∀ (s : List α) (k : Nat),
    findAux pat s k = (findAux pat s 0).map (fun d => k + d) := by
  intro s
  induction s with
  | nil => intro k; simp only [findAux]; split <;> simp
  | cons c cs ih =>
    intro k
    simp only [findAux]
    split
    · simp
    · rw [ih (k + 1), ih (0 + 1)]
      cases findAux pat cs 0 <;> simp
      omega

theorem find_eq (str pat : List α) (i : Nat) (hi : i ≤ str.length) :
    find str pat i = (findAux pat (str.drop i) 0).map (fun d => i + d) := by
  simp only [find, hi, if_true]
  exact findAux_shift pat _ i

theorem findAux_zero_some {pat s : List α} {d : Nat} (h : findAux pat s 0 = some d) :
    d + pat.length ≤ s.length ∧ s.drop d = pat ++ s.drop (d + pat.length) ∧
      ∀ p, p < d → ¬ pat <+: s.drop p := by
  obtain ⟨d', hr, hd, hpre, hmin⟩ := findAux_some h
  have hdd : d' = d := by omega
  subst hdd
  have hlen := hpre.length_le
  simp at hlen
  refine ⟨by omega, ?_, hmin⟩
  have := List.prefix_iff_eq_append.mp hpre
  rw [List.drop_drop] at this
  exact this.symm

theorem findAux_nil (s : List α) (k : Nat) : findAux ([] : List α) s k = some k := by
  cases s <;> simp [findAux]

/-! ## The split loop computes the reference splitter -/

theorem splitRef_none {sep s : List α} (h : findAux sep s 0 = none) :
    splitRef sep s = [s] := by
  rw [splitRef]
  split
  · rfl
  · rename_i d hd; rw [h] at hd; cases hd

theorem splitRef_some {sep s : List α} {d : Nat} (hsep : sep ≠ [])
    (h : findAux sep s 0 = some d) :
    splitRef sep s = s.take d :: splitRef sep (s.drop (d + sep.length)) := by
  rw [splitRef]
  split
  · rename_i hn; rw [h] at hn; cases hn
  · rename_i d' hd
    rw [h] at hd
    cases hd
    have hs : 0 < sep.length := List.length_pos.mpr hsep
    have hlen := (findAux_zero_some h).1
    have hpos : 0 < sep.length ∧ 0 < s.length := ⟨hs, by omega⟩
    simp [hpos]

theorem splitLoop_eq (str sep : List α) (hsep : sep ≠ []) :
    ∀ (fuel i : Nat) (c : List (List α)), i ≤ str.length → str.length - i < fuel →
      splitLoop str sep fuel i (find str sep i) c = some (c ++ splitRef sep (str.drop i)) := by
  intro fuel
  induction fuel with
  | zero => intro i c _ h; omega
  | succ fuel ih =>
    intro i c hi hf
    rw [find_eq str sep i hi]
    cases hfind : findAux sep (str.drop i) 0 with
    | none =>
      simp [splitLoop, substrFrom, splitRef_none hfind]
    | some d =>
      obtain ⟨hlen, -, -⟩ := findAux_zero_some hfind
      have hs : 0 < sep.length := List.length_pos.mpr hsep
      simp only [List.length_drop] at hlen
      simp only [Option.map_some', splitLoop]
      rw [ih (i + d + sep.length) _ (by omega) (by omega), splitRef_some hsep hfind]
      simp [substr, List.drop_drop, Nat.add_assoc]

/-! ## `mstr_join` in closed form -/

omit [DecidableEq α] in
theorem joinFold_eq (sep : List α) : ∀ (rest : List (List α)) (first : List α),
    rest.foldl (fun result it => result ++ sep ++ it) first
      = first ++ (rest.map (fun it => sep ++ it)).flatten := by
  intro rest
  induction rest with
  | nil => intro first; simp
  | cons x xs ih =>
    intro first
    rw [List.foldl_cons, ih]
    simp [List.append_assoc]

omit [DecidableEq α] in
theorem mstr_join_cons (x : List α) (xs : List (List α)) (sep : List α) :
    mstr_join (x :: xs) sep = x ++ (xs.map (fun it => sep ++ it)).flatten := by
  simp only [mstr_join]
  exact joinFold_eq sep xs x

omit [DecidableEq α] in
theorem mstr_join_cons_cons (x y : List α) (ys : List (List α)) (sep : List α) :
    mstr_join (x :: y :: ys) sep = x ++ sep ++ mstr_join (y :: ys) sep := by
  simp [mstr_join_cons, List.append_assoc]

omit [DecidableEq α] in
theorem mstr_join_eq_intercalate (sep : List α) : ∀ (container : List (List α)),
    mstr_join container sep = List.intercalate sep container := by
  intro container
  induction container with
  | nil => rfl
  | cons x xs ih =>
    cases xs with
    | nil => simp [mstr_join, List.intercalate]
    | cons y ys =>
      rw [mstr_join_cons_cons, ih]
      simp [List.intercalate, List.intersperse, List.append_assoc]

theorem splitRef_ne_nil (sep s : List α) : splitRef sep s ≠ [] := by
  rw [splitRef]
  split
  · simp
  · split <;> simp

theorem join_splitRef (sep : List α) (hsep : sep ≠ []) : ∀ (n : Nat) (s : List α),
    s.length ≤ n → mstr_join (splitRef sep s) sep = s := by
  intro n
  induction n with
  | zero =>
    intro s hs
    have : s = [] := List.length_eq_zero.mp (by omega)
    subst this
    have hnone : findAux sep ([] : List α) 0 = none := by
      simp [findAux, hsep]
    rw [splitRef_none hnone]
    rfl
  | succ n ih =>
    intro s hs
    cases hfind : findAux sep s 0 with
    | none => rw [splitRef_none hfind]; rfl
    | some d =>
      obtain ⟨hlen, hdrop, -⟩ := findAux_zero_some hfind
      have hpos : 0 < sep.length := List.length_pos.mpr hsep
      rw [splitRef_some hsep hfind]
      have hrec := ih (s.drop (d + sep.length)) (by simp only [List.length_drop]; omega)
      obtain ⟨y, ys, hy⟩ := List.exists_cons_of_ne_nil (splitRef_ne_nil sep (s.drop (d + sep.length)))
      rw [hy] at hrec ⊢
      rw [mstr_join_cons_cons, hrec, List.append_assoc, ← hdrop, List.take_append_drop]

/-! ## The replace loop, and the loops on an empty pattern -/

theorem mstr_split_eq (noSpecialHandling : Bool) (fuel : Nat) (container : List (List α))
    (S sep : List α) (hsep : sep ≠ []) (hfuel : S.length < fuel) :
    mstr_split noSpecialHandling fuel container S sep
      = some (splitRef sep S, (splitRef sep S).length) := by
  have hne : sep.isEmpty = false := by
    cases sep with
    | nil => exact absurd rfl hsep
    | cons a l => rfl
  simp only [mstr_split, hne, Bool.and_false, Bool.false_eq_true, if_false, vecClear]
  rw [splitLoop_eq S sep hsep fuel 0 [] (Nat.zero_le _) (by omega)]
  simp

theorem replaceLoop_eq (fromS toS : List α) (hfrom : fromS ≠ []) :
    ∀ (fuel : Nat) (done rest : List α) (ret : Nat), rest.length < fuel →
      replaceLoop fromS toS fuel (done ++ rest) done.length ret
        = some (done ++ mstr_join (splitRef fromS rest) toS,
                ret + ((splitRef fromS rest).length - 1)) := by
  intro fuel
  induction fuel with
  | zero => intro done rest ret h; omega
  | succ fuel ih =>
    intro done rest ret hf
    have hfind : find (done ++ rest) fromS done.length
        = (findAux fromS rest 0).map (fun d => done.length + d) := by
      rw [find_eq _ _ _ (by simp)]
      simp
    simp only [replaceLoop, hfind]
    cases hocc : findAux fromS rest 0 with
    | none =>
      simp [splitRef_none hocc, mstr_join]
    | some d =>
      obtain ⟨hlen, -, -⟩ := findAux_zero_some hocc
      have hpos : 0 < fromS.length := List.length_pos.mpr hfrom
      have hstr : strReplace (done ++ rest) (done.length + d) fromS.length toS
          = (done ++ rest.take d ++ toS) ++ rest.drop (d + fromS.length) := by
        simp only [strReplace]
        rw [List.take_append, Nat.add_assoc, List.drop_append]
      have hi : done.length + d + toS.length = (done ++ rest.take d ++ toS).length := by
        simp only [List.length_append, List.length_take]
        omega
      simp only [Option.map_some']
      rw [hstr, hi, ih _ _ _ (by simp only [List.length_drop]; omega), splitRef_some hfrom hocc]
      obtain ⟨y, ys, hy⟩ :=
        List.exists_cons_of_ne_nil (splitRef_ne_nil fromS (rest.drop (d + fromS.length)))
      rw [hy, mstr_join_cons_cons]
      simp [List.append_assoc]
      omega

theorem splitLoop_empty_sep (str : List α) : ∀ (fuel : Nat) (c : List (List α)),
    splitLoop str [] fuel 0 (some 0) c = none := by
  intro fuel
  induction fuel with
  | zero => intro c; rfl
  | succ fuel ih =>
    intro c
    have hfind : find str ([] : List α) 0 = some 0 := by
      simp [find, findAux_nil]
    simp only [splitLoop, List.length_nil, Nat.add_zero, hfind]
    exact ih _

theorem replaceLoop_empty_from (toS : List α) : ∀ (fuel : Nat) (str : List α) (i ret : Nat),
    i ≤ str.length → replaceLoop [] toS fuel str i ret = none := by
  intro fuel
  induction fuel with
  | zero => intro str i ret _; rfl
  | succ fuel ih =>
    intro str i ret hi
    have hfind : find str ([] : List α) i = some i := by
      simp [find, findAux_nil, hi]
    simp only [replaceLoop, hfind]
    apply ih
    simp only [strReplace, List.length_append, List.length_take, List.length_drop,
      List.length_nil]
    omega

/-! ## Counting fragments -/

theorem scanCount_skip (sep : List α) : ∀ (s : List α) (n : Nat),
    scanCount sep s n = scanCount sep (s.drop n) 0 := by
  intro s
  induction s with
  | nil => intro n; cases n <;> simp [scanCount]
  | cons c cs ih =>
    intro n
    cases n with
    | zero => simp
    | succ n => simp only [scanCount, List.drop_succ_cons]; exact ih n

theorem scanCount_none (sep : List α) : ∀ (s : List α),
    findAux sep s 0 = none → scanCount sep s 0 = 0 := by
  intro s
  induction s with
  | nil => intro _; rfl
  | cons c cs ih =>
    intro h
    simp only [findAux] at h
    split at h
    · simp at h
    · rename_i hn
      rw [findAux_shift] at h
      simp only [scanCount, hn, if_false, Bool.false_eq_true]
      apply ih
      cases hc : findAux sep cs 0 with
      | none => rfl
      | some d => rw [hc] at h; simp at h

theorem scanCount_some (sep : List α) (hsep : sep ≠ []) : ∀ (s : List α) (d : Nat),
    findAux sep s 0 = some d →
      scanCount sep s 0 = 1 + scanCount sep (s.drop (d + sep.length)) 0 := by
  intro s
  have hpos : 0 < sep.length := List.length_pos.mpr hsep
  induction s with
  | nil =>
    intro d h
    have := (findAux_zero_some h).1
    simp only [List.length_nil] at this
    omega
  | cons c cs ih =>
    intro d h
    simp only [findAux] at h
    split at h
    · rename_i hp
      have hd : d = 0 := by simpa using h.symm
      subst hd
      simp only [scanCount, hp, if_true]
      rw [scanCount_skip]
      have : 0 + sep.length = (sep.length - 1) + 1 := by omega
      rw [this, List.drop_succ_cons]
    · rename_i hn
      rw [findAux_shift] at h
      cases hc : findAux sep cs 0 with
      | none => rw [hc] at h; simp at h
      | some d' =>
        rw [hc] at h
        simp only [Option.map_some', Option.some.injEq] at h
        subst h
        simp only [scanCount, hn, if_false, Bool.false_eq_true]
        rw [ih d' hc]
        have : 0 + 1 + d' + sep.length = (d' + sep.length) + 1 := by omega
        rw [this, List.drop_succ_cons]

theorem splitRef_length (sep : List α) (hsep : sep ≠ []) : ∀ (n : Nat) (s : List α),
    s.length ≤ n → (splitRef sep s).length = scanCount sep s 0 + 1 := by
  intro n
  induction n with
  | zero =>
    intro s hs
    have : s = [] := List.length_eq_zero.mp (by omega)
    subst this
    have hnone : findAux sep ([] : List α) 0 = none := by simp [findAux, hsep]
    rw [splitRef_none hnone]
    rfl
  | succ n ih =>
    intro s hs
    have hpos : 0 < sep.length := List.length_pos.mpr hsep
    cases hfind : findAux sep s 0 with
    | none => rw [splitRef_none hfind, scanCount_none sep s hfind]; rfl
    | some d =>
      have hlen := (findAux_zero_some hfind).1
      rw [splitRef_some hsep hfind, scanCount_some sep hsep s d hfind, List.length_cons,
        ih _ (by simp only [List.length_drop]; omega)]
      omega

theorem scanCount_le_occurrences (sep : List α) : ∀ (s : List α) (n : Nat),
    scanCount sep s n ≤ occurrences sep s := by
  intro s
  induction s with
  | nil => intro n; simp [scanCount]
  | cons c cs ih =>
    intro n
    cases n with
    | zero =>
      simp only [scanCount, occurrences]
      split
      · have := ih (sep.length - 1); omega
      · have := ih 0; omega
    | succ n =>
      simp only [scanCount, occurrences]
      have := ih n
      omega

theorem findAux_none_of_no_occurrence {sep s : List α} (h : ¬ sep <:+: s) :
    findAux sep s 0 = none := by
  cases hfind : findAux sep s 0 with
  | none => rfl
  | some d =>
    exfalso
    apply h
    have hd := (findAux_zero_some hfind).2.1
    refine ⟨s.take d, s.drop (d + sep.length), ?_⟩
    rw [List.append_assoc, ← hd, List.take_append_drop]

/-! ## The scans of the trim family -/

theorem firstNotOfAux_none (C : List α) : ∀ (s : List α) (i : Nat),
    firstNotOfAux C s i = none → ∀ c ∈ s, c ∈ C := by
  intro s
  induction s with
  | nil => intro i _ c hc; cases hc
  | cons a as ih =>
    intro i h c hc
    simp only [firstNotOfAux] at h
    split at h
    · rename_i ha
      rcases List.mem_cons.mp hc with rfl | hc
      · exact ha
      · exact ih (i + 1) h c hc
    · cases h

theorem firstNotOfAux_some (C : List α) : ∀ (s : List α) (i r : Nat),
    firstNotOfAux C s i = some r →
      i ≤ r ∧ r - i = (s.takeWhile (fun c => decide (c ∈ C))).length ∧
        s.drop (r - i) = s.dropWhile (fun c => decide (c ∈ C)) := by
  intro s
  induction s with
  | nil => intro i r h; cases h
  | cons a as ih =>
    intro i r h
    simp only [firstNotOfAux] at h
    split at h
    · rename_i ha
      obtain ⟨h1, h2, h3⟩ := ih (i + 1) r h
      have hr : r - i = (r - (i + 1)) + 1 := by omega
      refine ⟨by omega, ?_, ?_⟩
      · rw [List.takeWhile_cons_of_pos (by simpa using ha), List.length_cons, ← h2]
        exact hr
      · rw [List.dropWhile_cons_of_pos (by simpa using ha), ← h3, hr, List.drop_succ_cons]
    · rename_i ha
      cases h
      refine ⟨Nat.le_refl _, ?_, ?_⟩
      · rw [List.takeWhile_cons_of_neg (by simpa using ha)]; simp
      · rw [List.dropWhile_cons_of_neg (by simpa using ha)]; simp

omit [DecidableEq α] in
theorem rdropWhile_cons_of_ne_nil (p : α → Bool) (a : α) (as : List α)
    (h : as.rdropWhile p ≠ []) : (a :: as).rdropWhile p = a :: as.rdropWhile p := by
  have h' : (List.dropWhile p as.reverse).isEmpty = false := by
    cases hd : List.dropWhile p as.reverse with
    | nil => simp [List.rdropWhile, hd] at h
    | cons x xs => rfl
  simp only [List.rdropWhile, List.reverse_cons, List.dropWhile_append, h']
  simp

omit [DecidableEq α] in
theorem rdropWhile_cons_of_nil (p : α → Bool) (a : α) (as : List α)
    (h : as.rdropWhile p = []) : (a :: as).rdropWhile p = if p a then [] else [a] := by
  have h' : List.dropWhile p as.reverse = [] := by
    simpa [List.rdropWhile] using h
  simp only [List.rdropWhile, List.reverse_cons, List.dropWhile_append, h']
  by_cases ha : p a <;> simp [ha]

theorem lastNotOfAux_none (C : List α) : ∀ (s : List α) (i : Nat),
    lastNotOfAux C s i = none → ∀ c ∈ s, c ∈ C := by
  intro s
  induction s with
  | nil => intro i _ c hc; cases hc
  | cons a as ih =>
    intro i h c hc
    simp only [lastNotOfAux] at h
    cases hrec : lastNotOfAux C as (i + 1) with
    | some j => rw [hrec] at h; cases h
    | none =>
      rw [hrec] at h
      simp only at h
      split at h
      · rename_i ha
        rcases List.mem_cons.mp hc with rfl | hc
        · exact ha
        · exact ih (i + 1) hrec c hc
      · cases h

theorem lastNotOfAux_some (C : List α) : ∀ (s : List α) (i r : Nat),
    lastNotOfAux C s i = some r →
      i ≤ r ∧ r - i < s.length ∧
        s.take (r - i + 1) = s.rdropWhile (fun c => decide (c ∈ C)) := by
  intro s
  induction s with
  | nil => intro i r h; cases h
  | cons a as ih =>
    intro i r h
    simp only [lastNotOfAux] at h
    cases hrec : lastNotOfAux C as (i + 1) with
    | some j =>
      rw [hrec] at h
      cases h
      obtain ⟨h1, h2, h3⟩ := ih (i + 1) r hrec
      have hr : r - i = (r - (i + 1)) + 1 := by omega
      refine ⟨by omega, by simp only [List.length_cons]; omega, ?_⟩
      have hne : as.rdropWhile (fun c => decide (c ∈ C)) ≠ [] := by
        rw [← h3]
        intro hnil
        have := congrArg List.length hnil
        simp only [List.length_take, List.length_nil] at this
        omega
      rw [rdropWhile_cons_of_ne_nil _ a as hne, ← h3, hr, List.take_succ_cons]
    | none =>
      rw [hrec] at h
      simp only at h
      split at h
      · cases h
      · rename_i ha
        cases h
        have hall := lastNotOfAux_none C as (i + 1) hrec
        have hnil : as.rdropWhile (fun c => decide (c ∈ C)) = [] := by
          rw [List.rdropWhile_eq_nil_iff]
          intro x hx
          simpa using hall x hx
        refine ⟨Nat.le_refl _, by simp, ?_⟩
        rw [rdropWhile_cons_of_nil _ a as hnil]
        simp [ha]

theorem mstr_trim_left_eq (S C : List α) :
    mstr_trim_left S C = S.dropWhile (fun c => decide (c ∈ C)) := by
  simp only [mstr_trim_left, find_first_not_of]
  cases h : firstNotOfAux C S 0 with
  | none =>
    have hall := firstNotOfAux_none C S 0 h
    symm
    rw [List.dropWhile_eq_nil_iff]
    intro x hx
    simpa using hall x hx
  | some i =>
    obtain ⟨-, -, h3⟩ := firstNotOfAux_some C S 0 i h
    simpa [substrFrom] using h3

theorem mstr_trim_right_eq (S C : List α) :
    mstr_trim_right S C = S.rdropWhile (fun c => decide (c ∈ C)) := by
  simp only [mstr_trim_right, find_last_not_of]
  cases h : lastNotOfAux C S 0 with
  | none =>
    have hall := lastNotOfAux_none C S 0 h
    symm
    rw [List.rdropWhile_eq_nil_iff]
    intro x hx
    simpa using hall x hx
  | some j =>
    obtain ⟨-, -, h3⟩ := lastNotOfAux_some C S 0 j h
    simpa [substr] using h3

omit [DecidableEq α] in
theorem rdropWhile_append_of_ne_nil (p : α → Bool) (L X : List α)
    (h : X.rdropWhile p ≠ []) : (L ++ X).rdropWhile p = L ++ X.rdropWhile p := by
  have h' : (List.dropWhile p X.reverse).isEmpty = false := by
    cases hd : List.dropWhile p X.reverse with
    | nil => simp [List.rdropWhile, hd] at h
    | cons x xs => rfl
  simp only [List.rdropWhile, List.reverse_append, List.dropWhile_append, h']
  simp

omit [DecidableEq α] in
theorem rdropWhile_dropWhile_ne_nil (p : α → Bool) (S : List α)
    (h : S.dropWhile p ≠ []) : (S.dropWhile p).rdropWhile p ≠ [] := by
  intro hnil
  rw [List.rdropWhile_eq_nil_iff] at hnil
  have hhead := List.head_dropWhile_not p S h
  have := hnil _ (List.head_mem h)
  rw [this] at hhead
  cases hhead

theorem mstr_trim_eq (S C : List α) :
    mstr_trim S C
      = (S.dropWhile (fun c => decide (c ∈ C))).rdropWhile (fun c => decide (c ∈ C)) := by
  simp only [mstr_trim, find_first_not_of, find_last_not_of]
  cases hf : firstNotOfAux C S 0 with
  | none =>
    have hall := firstNotOfAux_none C S 0 hf
    have : S.dropWhile (fun c => decide (c ∈ C)) = [] := by
      rw [List.dropWhile_eq_nil_iff]
      intro x hx
      simpa using hall x hx
    simp [this]
  | some i =>
    cases hl : lastNotOfAux C S 0 with
    | none =>
      have hall := lastNotOfAux_none C S 0 hl
      have : S.dropWhile (fun c => decide (c ∈ C)) = [] := by
        rw [List.dropWhile_eq_nil_iff]
        intro x hx
        simpa using hall x hx
      simp [this]
    | some j =>
      obtain ⟨-, hi, hdrop⟩ := firstNotOfAux_some C S 0 i hf
      obtain ⟨-, hj, htake⟩ := lastNotOfAux_some C S 0 j hl
      simp only [Nat.sub_zero] at hi hdrop hj htake
      simp only [substr]
      have hne : S.dropWhile (fun c => decide (c ∈ C)) ≠ [] := by
        intro hnil
        rw [List.dropWhile_eq_nil_iff] at hnil
        have hr : S.rdropWhile (fun c => decide (c ∈ C)) = [] :=
          List.rdropWhile_eq_nil_iff.mpr hnil
        have hlen := congrArg List.length (htake.trans hr)
        simp only [List.length_take, List.length_nil] at hlen
        omega
      have hrne := rdropWhile_dropWhile_ne_nil _ S hne
      have hsplit : S.rdropWhile (fun c => decide (c ∈ C))
          = S.takeWhile (fun c => decide (c ∈ C))
            ++ (S.dropWhile (fun c => decide (c ∈ C))).rdropWhile (fun c => decide (c ∈ C)) := by
        conv_lhs => rw [← List.takeWhile_append_dropWhile (fun c => decide (c ∈ C)) S]
        exact rdropWhile_append_of_ne_nil _ _ _ hrne
      have hlen := congrArg List.length hsplit
      rw [← htake] at hlen
      simp only [List.length_take, List.length_append, ← hi] at hlen
      have hpos : 0 < ((S.dropWhile (fun c => decide (c ∈ C))).rdropWhile
          (fun c => decide (c ∈ C))).length := List.length_pos.mpr hrne
      have hpre := List.prefix_iff_eq_take.mp
        (List.rdropWhile_prefix (fun c => decide (c ∈ C)) (S.dropWhile (fun c => decide (c ∈ C))))
      have hmin : min (j + 1) S.length = j + 1 := by omega
      rw [hmin] at hlen
      have hcount : j - i + 1 = ((S.dropWhile (fun c => decide (c ∈ C))).rdropWhile
          (fun c => decide (c ∈ C))).length := by omega
      rw [hdrop, hcount]
      exact hpre.symm

/-! ## Split, join and replace: the claims -/

omit [DecidableEq α] in
theorem splitUnits_eq : ∀ (str : List α) (c : List (List α)),
    splitUnits str c = c ++ str.map (fun ch => [ch]) := by
  intro str
  induction str with
  | nil => intro c; simp [splitUnits]
  | cons a as ih =>
    intro c
    simp only [splitUnits, List.foldl_cons] at ih ⊢
    rw [ih]
    simp

omit [DecidableEq α] in
theorem flatten_units : ∀ (s : List α),
    ((s.map (fun ch => [ch])).map (fun it => ([] : List α) ++ it)).flatten = s := by
  intro s
  induction s with
  | nil => rfl
  | cons a as ih => simp only [List.map_cons, List.flatten_cons, ih]; rfl

/-- C1: for every string `S` and every non-empty separator `sep`, `mstr_split`
returns (given fuel for more than `S.length` loop tests) and joining the
fragments it returns with `sep` gives back `S`; this holds in both build modes
and whatever the output container held before. -/
theorem mstr_split_join_roundtrip (noSpecialHandling : Bool) (fuel : Nat)
    (container : List (List α)) (S sep : List α) (hsep : sep ≠ []) (hfuel : S.length < fuel) :
    ∃ frags, mstr_split noSpecialHandling fuel container S sep = some (frags, frags.length) ∧
      mstr_join frags sep = S :=
  ⟨splitRef sep S, mstr_split_eq noSpecialHandling fuel container S sep hsep hfuel,
    join_splitRef sep hsep S.length S (Nat.le_refl _)⟩

/-- Witness for C1: `A|B|C` split at `|` gives the three fragments `A`, `B`, `C`,
and they join back to `A|B|C`. -/
theorem mstr_split_join_roundtrip_witness :
    (['|'] ≠ ([] : List Char) ∧ ['A', '|', 'B', '|', 'C'].length < 6) ∧
    mstr_split false 6 [] ['A', '|', 'B', '|', 'C'] ['|'] = some ([['A'], ['B'], ['C']], 3) ∧
    mstr_join [['A'], ['B'], ['C']] ['|'] = ['A', '|', 'B', '|', 'C'] ∧
    ∃ frags, mstr_split false 6 [] ['A', '|', 'B', '|', 'C'] ['|'] = some (frags, frags.length) ∧
      mstr_join frags ['|'] = ['A', '|', 'B', '|', 'C'] :=
  ⟨⟨by decide, by decide⟩, by decide, by decide,
    mstr_split_join_roundtrip false 6 [] ['A', '|', 'B', '|', 'C'] ['|'] (by decide) (by decide)⟩

/-- C2: for a non-empty pattern `fromS`, `mstr_replace` returns (given fuel for
more than `str.length` loop tests), the new string is the join with `toS` of the
fragments of `mstr_split` of the original string at `fromS`, and the returned
count is the number of those fragments minus one; `toS` is arbitrary, so it may
contain `fromS`. -/
theorem mstr_replace_eq_join_split (noSpecialHandling : Bool) (fuel : Nat)
    (container : List (List α)) (str fromS toS : List α) (hfrom : fromS ≠ [])
    (hfuel : str.length < fuel) :
    ∃ frags, mstr_split noSpecialHandling fuel container str fromS = some (frags, frags.length) ∧
      mstr_replace fuel str fromS toS = some (mstr_join frags toS, frags.length - 1) := by
  refine ⟨splitRef fromS str, mstr_split_eq noSpecialHandling fuel container str fromS hfrom hfuel, ?_⟩
  have h := replaceLoop_eq fromS toS hfrom fuel [] str 0 hfuel
  simpa [mstr_replace] using h

/-- Witness for C2: replacing `3` by `34` in `123` gives `1234` with count 1 (the
inserted `3` is not matched again), and `STT` by `mmm` in `TESTTEST` gives
`TEmmmEST`. -/
theorem mstr_replace_eq_join_split_witness :
    (['3'] ≠ ([] : List Char) ∧ ['1', '2', '3'].length < 4) ∧
    mstr_replace 4 ['1', '2', '3'] ['3'] ['3', '4'] = some (['1', '2', '3', '4'], 1) ∧
    mstr_replace 9 ['T', 'E', 'S', 'T', 'T', 'E', 'S', 'T'] ['S', 'T', 'T'] ['m', 'm', 'm']
      = some (['T', 'E', 'm', 'm', 'm', 'E', 'S', 'T'], 1) ∧
    ∃ frags, mstr_split false 4 [] ['1', '2', '3'] ['3'] = some (frags, frags.length) ∧
      mstr_replace 4 ['1', '2', '3'] ['3'] ['3', '4']
        = some (mstr_join frags ['3', '4'], frags.length - 1) :=
  ⟨⟨by decide, by decide⟩, by decide, by decide,
    mstr_replace_eq_join_split false 4 [] ['1', '2', '3'] ['3'] ['3', '4'] (by decide)
      (by decide)⟩

/-- C3: with an empty `from`, the loop of `mstr_replace` never exits: `find`
matches the empty pattern at the scan position every time, so whatever the fuel
the function does not return (it does not return 0 with `str` unchanged). -/
theorem mstr_replace_empty_from_never_returns (fuel : Nat) (str toS : List α) :
    mstr_replace fuel str [] toS = none :=
  replaceLoop_empty_from toS fuel str 0 0 (Nat.zero_le _)

/-- C4, as stated, fails: in `AAA` the separator `AA` matches at the two
positions 0 and 1, yet `mstr_split` returns 2 fragments (the empty one and `A`),
not 3, because its scan goes on after the first match and so never sees the
overlapping one. -/
theorem mstr_split_count_overlap_counterexample :
    mstr_split false 4 [] ['A', 'A', 'A'] ['A', 'A'] = some ([[], ['A']], 2) ∧
    occurrences ['A', 'A'] ['A', 'A', 'A'] = 2 ∧
    (mstr_split false 4 [] ['A', 'A', 'A'] ['A', 'A']).map Prod.snd
      ≠ some (occurrences ['A', 'A'] ['A', 'A', 'A'] + 1) := by
  decide

/-- C4, amended: for a non-empty separator the fragment count returned by
`mstr_split` is one more than the number of occurrences met by a left-to-right
scan that skips each matched separator (non-overlapping occurrences), which is
at most the number of positions at which the separator matches. -/
theorem mstr_split_count_nonoverlapping (noSpecialHandling : Bool) (fuel : Nat)
    (container : List (List α)) (S sep : List α) (hsep : sep ≠ []) (hfuel : S.length < fuel) :
    ∃ frags, mstr_split noSpecialHandling fuel container S sep
        = some (frags, scanCount sep S 0 + 1) ∧
      frags.length = scanCount sep S 0 + 1 ∧
      scanCount sep S 0 ≤ occurrences sep S := by
  refine ⟨splitRef sep S, ?_, splitRef_length sep hsep S.length S (Nat.le_refl _),
    scanCount_le_occurrences sep S 0⟩
  rw [mstr_split_eq noSpecialHandling fuel container S sep hsep hfuel,
    splitRef_length sep hsep S.length S (Nat.le_refl _)]

/-- Witness for C4 amended: `T,E,S,T` split at `,` gives 4 fragments, one more
than the 3 commas the scan meets. -/
theorem mstr_split_count_nonoverlapping_witness :
    ([','] ≠ ([] : List Char) ∧ ['T', ',', 'E', ',', 'S', ',', 'T'].length < 8) ∧
    scanCount [','] ['T', ',', 'E', ',', 'S', ',', 'T'] 0 = 3 ∧
    ∃ frags, mstr_split false 8 [] ['T', ',', 'E', ',', 'S', ',', 'T'] [',']
        = some (frags, scanCount [','] ['T', ',', 'E', ',', 'S', ',', 'T'] 0 + 1) ∧
      frags.length = scanCount [','] ['T', ',', 'E', ',', 'S', ',', 'T'] 0 + 1 ∧
      scanCount [','] ['T', ',', 'E', ',', 'S', ',', 'T'] 0
        ≤ occurrences [','] ['T', ',', 'E', ',', 'S', ',', 'T'] :=
  ⟨⟨by decide, by decide⟩, by decide,
    mstr_split_count_nonoverlapping false 8 [] ['T', ',', 'E', ',', 'S', ',', 'T'] [',']
      (by decide) (by decide)⟩

/-- C5: when the non-empty separator `sep` does not occur in `S` as a contiguous
sub-sequence, `mstr_split` returns after one loop test with count 1 and the
single fragment `S`; `S` may be empty. -/
theorem mstr_split_no_occurrence (noSpecialHandling : Bool) (fuel : Nat)
    (container : List (List α)) (S sep : List α) (hsep : sep ≠ []) (hno : ¬ sep <:+: S)
    (hfuel : 0 < fuel) :
    mstr_split noSpecialHandling fuel container S sep = some ([S], 1) := by
  have hne : sep.isEmpty = false := by
    cases sep with
    | nil => exact absurd rfl hsep
    | cons a l => rfl
  have hfind : find S sep 0 = none := by
    rw [find_eq S sep 0 (Nat.zero_le _)]
    simp [findAux_none_of_no_occurrence hno]
  obtain ⟨n, rfl⟩ : ∃ n, fuel = n + 1 := ⟨fuel - 1, by omega⟩
  simp [mstr_split, hne, vecClear, hfind, splitLoop, substrFrom]

/-- Witness for C5: `ABC` split at `>` gives the one fragment `ABC`, and the
empty string split at `|` gives one empty fragment. -/
theorem mstr_split_no_occurrence_witness :
    (['>'] ≠ ([] : List Char) ∧ ¬ ['>'] <:+: ['A', 'B', 'C'] ∧ 0 < 1) ∧
    mstr_split false 1 [] ['A', 'B', 'C'] ['>'] = some ([['A', 'B', 'C']], 1) ∧
    mstr_split false 1 [] ([] : List Char) ['|'] = some ([[]], 1) :=
  ⟨⟨by decide, by decide, by decide⟩,
    mstr_split_no_occurrence false 1 [] ['A', 'B', 'C'] ['>'] (by decide) (by decide)
      (by decide), by decide⟩

/-- C6: without `MSTR_SPLIT_NO_SPECIAL_HANDLING`, splitting `S` at the empty
separator returns, for any fuel and any previous container content, one one-unit
fragment per unit of `S` in order, hence `S.length` fragments and none for the
empty input; joining them with the empty separator gives back `S`. -/
theorem mstr_split_empty_sep_special (fuel : Nat) (container : List (List α)) (S : List α) :
    mstr_split false fuel container S [] = some (S.map (fun c => [c]), S.length) ∧
    (∀ i : Nat, (S.map (fun c => [c]))[i]? = (S[i]?).map (fun c => [c])) ∧
    mstr_join (S.map (fun c => [c])) [] = S ∧
    mstr_split false fuel container ([] : List α) [] = some ([], 0) := by
  refine ⟨?_, ?_, ?_, ?_⟩
  · simp [mstr_split, vecClear, splitUnits_eq]
  · intro i; simp
  · cases S with
    | nil => rfl
    | cons a as =>
      rw [List.map_cons, mstr_join_cons, flatten_units]
      rfl
  · simp [mstr_split, vecClear, splitUnits]

/-- C7: with `MSTR_SPLIT_NO_SPECIAL_HANDLING` defined, the loop of `mstr_split`
never exits on the empty separator: `find` matches it at position 0 every time
and `i` stays 0, so whatever the fuel the function does not return (it does not
yield the single fragment `S`). -/
theorem mstr_split_literal_empty_sep_never_returns (fuel : Nat) (container : List (List α))
    (S : List α) :
    mstr_split true fuel container S [] = none := by
  have hfind : find S ([] : List α) 0 = some 0 := by
    simp [find, findAux_nil]
  simp [mstr_split, hfind, splitLoop_empty_sep]

/-- C8: `mstr_join` is the intercalation of the fragments with `sep`: the first
fragment followed by `sep ++ fragment` for each later one; the empty list gives
the empty string and a one-element list gives its element whatever `sep` is. -/
theorem mstr_join_intercalate {β : Type} (container : List (List β)) (sep : List β) :
    mstr_join container sep = List.intercalate sep container ∧
    mstr_join ([] : List (List β)) sep = [] ∧
    (∀ x : List β, mstr_join [x] sep = x) ∧
    (∀ (x : List β) (xs : List (List β)),
      mstr_join (x :: xs) sep = x ++ (xs.map (fun it => sep ++ it)).flatten) :=
  ⟨mstr_join_eq_intercalate sep container, rfl, fun _ => rfl,
    fun x xs => mstr_join_cons x xs sep⟩

/-! ## Trim: the claims -/

omit [DecidableEq α] in
theorem rdropWhile_append_rest (p : α → Bool) (X : List α) :
    X.rdropWhile p ++ (X.reverse.takeWhile p).reverse = X := by
  rw [List.rdropWhile, ← List.reverse_append, List.takeWhile_append_dropWhile,
    List.reverse_reverse]

/-- C9: `mstr_trim(S, C)` cuts `S` as `L ++ T ++ R` where `T` is the result and
every unit of `L` and of `R` belongs to `C`; `T` is empty or starts and ends with
a unit outside `C`; `T` is empty exactly when every unit of `S` is in `C`; and
`T` is `S` without its leading run and then without its trailing run of units of
`C`, so units of `C` between two kept units stay. -/
theorem mstr_trim_spec (S C : List α) :
    (∃ L R, S = L ++ mstr_trim S C ++ R ∧ (∀ c ∈ L, c ∈ C) ∧ (∀ c ∈ R, c ∈ C)) ∧
    (mstr_trim S C = [] ∨
      ((∃ a, (mstr_trim S C).head? = some a ∧ a ∉ C) ∧
        (∃ b, (mstr_trim S C).getLast? = some b ∧ b ∉ C))) ∧
    (mstr_trim S C = [] ↔ ∀ c ∈ S, c ∈ C) ∧
    mstr_trim S C
      = (S.dropWhile (fun c => decide (c ∈ C))).rdropWhile (fun c => decide (c ∈ C)) := by
  have heq := mstr_trim_eq S C
  refine ⟨?_, ?_, ?_, heq⟩
  · refine ⟨S.takeWhile (fun c => decide (c ∈ C)),
      ((S.dropWhile (fun c => decide (c ∈ C))).reverse.takeWhile
        (fun c => decide (c ∈ C))).reverse, ?_, ?_, ?_⟩
    · rw [heq, List.append_assoc, rdropWhile_append_rest, List.takeWhile_append_dropWhile]
    · intro c hc
      simpa using List.mem_takeWhile_imp hc
    · intro c hc
      simpa using List.mem_takeWhile_imp (List.mem_reverse.mp hc)
  · by_cases hT : mstr_trim S C = []
    · exact Or.inl hT
    · right
      have hT' : (S.dropWhile (fun c => decide (c ∈ C))).rdropWhile
          (fun c => decide (c ∈ C)) ≠ [] := by rw [← heq]; exact hT
      have hdw : S.dropWhile (fun c => decide (c ∈ C)) ≠ [] := by
        intro hnil
        rw [hnil] at hT'
        exact hT' (by simp)
      constructor
      · refine ⟨(S.dropWhile (fun c => decide (c ∈ C))).head hdw, ?_, ?_⟩
        · rw [heq, List.head?_eq_head hT']
          congr 1
          exact List.IsPrefix.head (List.rdropWhile_prefix _ _) hT'
        · have := List.head_dropWhile_not (fun c => decide (c ∈ C)) S hdw
          simpa using this
      · refine ⟨((S.dropWhile (fun c => decide (c ∈ C))).rdropWhile
            (fun c => decide (c ∈ C))).getLast hT', ?_, ?_⟩
        · rw [heq, List.getLast?_eq_getLast _ hT']
        · have := List.rdropWhile_last_not (fun c => decide (c ∈ C)) _ hT'
          simpa using this
  · rw [heq]
    constructor
    · intro hnil
      have hdw : S.dropWhile (fun c => decide (c ∈ C)) = [] := by
        by_contra hne
        exact rdropWhile_dropWhile_ne_nil _ S hne hnil
      rw [List.dropWhile_eq_nil_iff] at hdw
      intro c hc
      simpa using hdw c hc
    · intro hall
      have hdw : S.dropWhile (fun c => decide (c ∈ C)) = [] := by
        rw [List.dropWhile_eq_nil_iff]
        intro x hx
        simpa using hall x hx
      simp [hdw]

/-- C10: `mstr_trim_left(S, C)` is `S` without its longest leading run of units of
`C` (the rest, trailing units of `C` included, is kept), `mstr_trim_right(S, C)`
is `S` without its longest trailing run of units of `C` (leading ones are kept),
and each is empty exactly when every unit of `S` is in `C`. -/
theorem mstr_trim_left_right_spec (S C : List α) :
    mstr_trim_left S C = S.dropWhile (fun c => decide (c ∈ C)) ∧
    mstr_trim_right S C = S.rdropWhile (fun c => decide (c ∈ C)) ∧
    (mstr_trim_left S C = [] ↔ ∀ c ∈ S, c ∈ C) ∧
    (mstr_trim_right S C = [] ↔ ∀ c ∈ S, c ∈ C) := by
  refine ⟨mstr_trim_left_eq S C, mstr_trim_right_eq S C, ?_, ?_⟩
  · rw [mstr_trim_left_eq, List.dropWhile_eq_nil_iff]
    simp
  · rw [mstr_trim_right_eq, List.rdropWhile_eq_nil_iff]
    simp

/-- The trim cases of the unit test, evaluated on the embedding. -/
theorem mstr_trim_examples :
    mstr_trim ['T', 'A', 'T'] ['T'] = ['A'] ∧
    mstr_trim ['T', 'E', 'S', 'T'] ['T', 'E', 'S', 'T'] = [] ∧
    mstr_trim [' ', 'T', 'E', 'S', 'T', ' '] ['T', 'E', 'S', 'T'] = [' ', 'T', 'E', 'S', 'T', ' '] ∧
    mstr_trim ['<', 'T', 'E', 'S', 'T', '>'] ['<', '>'] = ['T', 'E', 'S', 'T'] ∧
    mstr_trim ['T', 'A', 'X', 'A', 'T'] ['T'] = ['A', 'X', 'A'] ∧
    mstr_trim_left [' ', 'T', ' ', 'T', ' '] [' ', '\t'] = ['T', ' ', 'T', ' '] ∧
    mstr_trim_left ['T', 'A', 'T'] ['T'] = ['A', 'T'] ∧
    mstr_trim_right ['T', 'A', 'T'] ['T'] = ['T', 'A'] ∧
    mstr_trim_right ['<', 'T', 'E', 'S', 'T', '>'] ['<', '>'] = ['<', 'T', 'E', 'S', 'T'] := by
  decide

omit [DecidableEq α] in
theorem dropWhile_rdropWhile_dropWhile (p : α → Bool) (S : List α) :
    ((S.dropWhile p).rdropWhile p).dropWhile p = (S.dropWhile p).rdropWhile p := by
  cases hT : (S.dropWhile p).rdropWhile p with
  | nil => rfl
  | cons x xs =>
    have hT' : (S.dropWhile p).rdropWhile p ≠ [] := by rw [hT]; simp
    have hdw : S.dropWhile p ≠ [] := by
      intro hnil
      rw [hnil] at hT'
      exact hT' (by simp)
    have hhead : ((S.dropWhile p).rdropWhile p).head hT' = (S.dropWhile p).head hdw :=
      List.IsPrefix.head (List.rdropWhile_prefix _ _) hT'
    have hx : p x = false := by
      have h1 := List.head_dropWhile_not p S hdw
      rw [← hhead] at h1
      simpa [hT] using h1
    rw [List.dropWhile_cons_of_neg (by simp [hx])]

theorem mstr_trim_nil_cuts (S : List α) :
    mstr_trim S [] = S ∧ mstr_trim_left S [] = S ∧ mstr_trim_right S [] = S := by
  have hp : (fun c : α => decide (c ∈ ([] : List α))) = fun _ => false := by
    funext c; simp
  have hdw : S.dropWhile (fun _ => false) = S := by
    cases S <;> simp [List.dropWhile]
  have hrdw : S.rdropWhile (fun _ => false) = S := by
    rw [List.rdropWhile_eq_self_iff]; intro _; simp
  refine ⟨?_, ?_, ?_⟩
  · rw [mstr_trim_eq, hp, hdw, hrdw]
  · rw [mstr_trim_left_eq, hp, hdw]
  · rw [mstr_trim_right_eq, hp, hrdw]

theorem cut_pred_congr (C1 C2 : List α) (h : ∀ c, c ∈ C1 ↔ c ∈ C2) :
    (fun c : α => decide (c ∈ C1)) = fun c => decide (c ∈ C2) := by
  funext c
  simp [h c]

/-- C11: each trim operation is idempotent: trimming the result of `mstr_trim`,
of `mstr_trim_left` or of `mstr_trim_right` again with the same cut-set changes
nothing. -/
theorem mstr_trim_idempotent (S C : List α) :
    mstr_trim (mstr_trim S C) C = mstr_trim S C ∧
    mstr_trim_left (mstr_trim_left S C) C = mstr_trim_left S C ∧
    mstr_trim_right (mstr_trim_right S C) C = mstr_trim_right S C := by
  refine ⟨?_, ?_, ?_⟩
  · rw [mstr_trim_eq (mstr_trim S C) C, mstr_trim_eq S C, dropWhile_rdropWhile_dropWhile,
      List.rdropWhile_idempotent]
  · rw [mstr_trim_left_eq (mstr_trim_left S C) C, mstr_trim_left_eq S C,
      List.dropWhile_idempotent]
  · rw [mstr_trim_right_eq (mstr_trim_right S C) C, mstr_trim_right_eq S C,
      List.rdropWhile_idempotent]

/-- C12: with the empty cut-set `mstr_trim`, `mstr_trim_left` and
`mstr_trim_right` return their input unchanged, whatever it is (the empty string
included). -/
theorem mstr_trim_empty_cutset (S : List α) :
    mstr_trim S [] = S ∧ mstr_trim_left S [] = S ∧ mstr_trim_right S [] = S ∧
    mstr_trim ([] : List α) [] = [] ∧ mstr_trim_left ([] : List α) [] = [] ∧
    mstr_trim_right ([] : List α) [] = [] :=
  ⟨(mstr_trim_nil_cuts S).1, (mstr_trim_nil_cuts S).2.1, (mstr_trim_nil_cuts S).2.2,
    rfl, rfl, rfl⟩

/-- C13: the cut-set counts only through its members: two cut-sets with the same
members, in any order and with any repetitions, give the same `mstr_trim`,
`mstr_trim_left` and `mstr_trim_right`. -/
theorem mstr_trim_cutset_as_set (S C1 C2 : List α) (h : ∀ c, c ∈ C1 ↔ c ∈ C2) :
    mstr_trim S C1 = mstr_trim S C2 ∧
    mstr_trim_left S C1 = mstr_trim_left S C2 ∧
    mstr_trim_right S C1 = mstr_trim_right S C2 := by
  have hp := cut_pred_congr C1 C2 h
  refine ⟨?_, ?_, ?_⟩
  · rw [mstr_trim_eq S C1, mstr_trim_eq S C2, hp]
  · rw [mstr_trim_left_eq S C1, mstr_trim_left_eq S C2, hp]
  · rw [mstr_trim_right_eq S C1, mstr_trim_right_eq S C2, hp]

/-- Witness for C13: the cut-sets space-tab and tab-space-space trim ` T T ` alike,
to `T T`. -/
theorem mstr_trim_cutset_as_set_witness :
    (∀ c : Char, c ∈ [' ', '\t'] ↔ c ∈ ['\t', ' ', ' ']) ∧
    mstr_trim [' ', 'T', ' ', 'T', ' '] [' ', '\t'] = ['T', ' ', 'T'] ∧
    (mstr_trim [' ', 'T', ' ', 'T', ' '] [' ', '\t']
        = mstr_trim [' ', 'T', ' ', 'T', ' '] ['\t', ' ', ' '] ∧
      mstr_trim_left [' ', 'T', ' ', 'T', ' '] [' ', '\t']
        = mstr_trim_left [' ', 'T', ' ', 'T', ' '] ['\t', ' ', ' '] ∧
      mstr_trim_right [' ', 'T', ' ', 'T', ' '] [' ', '\t']
        = mstr_trim_right [' ', 'T', ' ', 'T', ' '] ['\t', ' ', ' ']) :=
  ⟨by intro c; simp [or_comm], by decide,
    mstr_trim_cutset_as_set [' ', 'T', ' ', 'T', ' '] [' ', '\t'] ['\t', ' ', ' ']
      (by intro c; simp [or_comm])⟩

/-- The case `T T` of the unit test with the empty cut-set, for the three trims. -/
theorem mstr_trim_empty_cutset_example :
    mstr_trim ['T', ' ', 'T'] [] = ['T', ' ', 'T'] ∧
    mstr_trim_left ['T', ' ', 'T'] [] = ['T', ' ', 'T'] ∧
    mstr_trim_right ['T', ' ', 'T'] [] = ['T', ' ', 'T'] := by
  decide

/-! ## Escape and quote: one unit at a time -/

theorem escapeLoop_eq (T : CharT) (f : Bool) : ∀ (src ret : List Nat),
    escapeLoop T f src ret = ret ++ src.flatMap (escapeUnit T f) := by
  intro src
  induction src with
  | nil => intro ret; simp [escapeLoop]
  | cons c cs ih =>
    intro ret
    simp only [escapeLoop, List.foldl_cons] at ih ⊢
    rw [ih]
    simp [List.append_assoc]

theorem mstr_escape_eq_flatMap (T : CharT) (f : Bool) (src : List Nat) :
    mstr_escape T f src = src.flatMap (escapeUnit T f) := by
  simp [mstr_escape, mstr_escape_into, escapeLoop_eq]

theorem mstr_escape_append_eq (T : CharT) (f : Bool) (a b : List Nat) :
    mstr_escape T f (a ++ b) = mstr_escape T f a ++ mstr_escape T f b := by
  simp [mstr_escape_eq_flatMap]

theorem mstr_escape_unit_between (T : CharT) (f : Bool) (a b : List Nat) (c : Nat) :
    mstr_escape T f (a ++ [c] ++ b)
      = mstr_escape T f a ++ escapeUnit T f c ++ mstr_escape T f b := by
  simp [mstr_escape_eq_flatMap]

theorem mstr_oct_ch_eq (ch : Nat) (h : ch < 256) :
    mstr_oct_ch ch = [48, 48 + ch / 128, 48 + ch % 8] := by
  have h7 : ch &&& 7 = ch % 8 := Nat.and_pow_two_sub_one_eq_mod ch 3
  have h1 : (ch / 128) &&& 7 = (ch / 128) % 8 := Nat.and_pow_two_sub_one_eq_mod _ 3
  have hs : ch >>> 7 = ch / 128 := Nat.shiftRight_eq_div_pow ch 7
  have hs2 : (ch / 128) >>> 7 = ch / 128 / 128 := Nat.shiftRight_eq_div_pow _ 7
  have hlt : ch / 128 < 2 := by omega
  have hmod : ch / 128 % 256 = ch / 128 := Nat.mod_eq_of_lt (by omega)
  have hz : ch / 128 / 128 = 0 := by omega
  simp only [mstr_oct_ch, hs, h7, hmod, h1, hs2, hz]
  have : ch / 128 % 8 = ch / 128 := Nat.mod_eq_of_lt (by omega)
  simp [this]

theorem escapeUnit_copy (T : CharT) (c : Nat) (h1 : 0x20 ≤ T.value c) (h2 : c ≠ 34)
    (h3 : c ≠ 92) : escapeUnit T false c = [c] := by
  have hc : (0x20 : Int) ≤ (c : Int) := by
    unfold CharT.value at h1
    split at h1
    · have : (0 : Int) < 2 ^ T.bits := by positivity
      omega
    · exact h1
  have hc' : 32 ≤ c := by omega
  have hlt : ¬ T.value c < 0x20 := by omega
  have hctl : ∀ k : Nat, k < 32 → c ≠ k := fun k hk => by omega
  simp [escapeUnit, h2, h3, hlt, hctl 0, hctl 7, hctl 8, hctl 9, hctl 10, hctl 11, hctl 12,
    hctl 13]

theorem mstr_escape_copy (T : CharT) (s : List Nat)
    (h : ∀ c ∈ s, 0x20 ≤ T.value c ∧ c ≠ 34 ∧ c ≠ 92) : mstr_escape T false s = s := by
  rw [mstr_escape_eq_flatMap]
  induction s with
  | nil => rfl
  | cons c cs ih =>
    obtain ⟨h1, h2, h3⟩ := h c (List.mem_cons_self _ _)
    rw [List.flatMap_cons, escapeUnit_copy T c h1 h2 h3,
      ih (fun x hx => h x (List.mem_cons_of_mem _ hx))]
    rfl

/-- Where the character type is unsigned, without `MSTR_ESCAPE_NON_ASCII` every
unit from 0x20 on other than the double quote and the backslash is copied. -/
theorem mstr_escape_copy_unsigned (w : Width) (s : List Nat)
    (h : ∀ c ∈ s, 0x20 ≤ c ∧ c ≠ 34 ∧ c ≠ 92) : mstr_escape ⟨w, false⟩ false s = s := by
  apply mstr_escape_copy
  intro c hc
  obtain ⟨h1, h2, h3⟩ := h c hc
  refine ⟨?_, h2, h3⟩
  simp only [CharT.value, Bool.false_and, Bool.false_eq_true, if_false]
  omega

/-- Where `char` is signed, without `MSTR_ESCAPE_NON_ASCII` every byte from 0x20 to
0x7F other than the double quote and the backslash is copied. -/
theorem mstr_escape_copy_signed_low (s : List Nat)
    (h : ∀ c ∈ s, 0x20 ≤ c ∧ c < 0x80 ∧ c ≠ 34 ∧ c ≠ 92) :
    mstr_escape ⟨.one, true⟩ false s = s := by
  apply mstr_escape_copy
  intro c hc
  obtain ⟨h1, h2, h3, h4⟩ := h c hc
  refine ⟨?_, h3, h4⟩
  have hb : ¬ (2 ^ ((⟨.one, true⟩ : CharT).bits - 1) ≤ c) := by
    simp only [CharT.bits, Width.bytes]
    omega
  simp only [CharT.value, hb, decide_False, Bool.and_false, Bool.false_eq_true, if_false]
  omega

/-! ## Escape and quote: the claims -/

/-- C14: for every character type (size 1, 2 or 4, signed or not), in both
builds, a double quote anywhere in the input is emitted as two double quotes, a
backslash as two backslashes, and NUL, bell, backspace, form feed, newline,
carriage return, tab and vertical tab as a backslash followed by `0`, `a`, `b`,
`f`, `n`, `r`, `t`, `v`; the text before and after is escaped on its own. -/
theorem mstr_escape_letter_escapes (T : CharT) (escapeNonAscii : Bool) (a b : List Nat) :
    mstr_escape T escapeNonAscii (a ++ [34] ++ b)
      = mstr_escape T escapeNonAscii a ++ [34, 34] ++ mstr_escape T escapeNonAscii b ∧
    mstr_escape T escapeNonAscii (a ++ [92] ++ b)
      = mstr_escape T escapeNonAscii a ++ [92, 92] ++ mstr_escape T escapeNonAscii b ∧
    mstr_escape T escapeNonAscii (a ++ [0] ++ b)
      = mstr_escape T escapeNonAscii a ++ [92, 48] ++ mstr_escape T escapeNonAscii b ∧
    mstr_escape T escapeNonAscii (a ++ [7] ++ b)
      = mstr_escape T escapeNonAscii a ++ [92, 97] ++ mstr_escape T escapeNonAscii b ∧
    mstr_escape T escapeNonAscii (a ++ [8] ++ b)
      = mstr_escape T escapeNonAscii a ++ [92, 98] ++ mstr_escape T escapeNonAscii b ∧
    mstr_escape T escapeNonAscii (a ++ [12] ++ b)
      = mstr_escape T escapeNonAscii a ++ [92, 102] ++ mstr_escape T escapeNonAscii b ∧
    mstr_escape T escapeNonAscii (a ++ [10] ++ b)
      = mstr_escape T escapeNonAscii a ++ [92, 110] ++ mstr_escape T escapeNonAscii b ∧
    mstr_escape T escapeNonAscii (a ++ [13] ++ b)
      = mstr_escape T escapeNonAscii a ++ [92, 114] ++ mstr_escape T escapeNonAscii b ∧
    mstr_escape T escapeNonAscii (a ++ [9] ++ b)
      = mstr_escape T escapeNonAscii a ++ [92, 116] ++ mstr_escape T escapeNonAscii b ∧
    mstr_escape T escapeNonAscii (a ++ [11] ++ b)
      = mstr_escape T escapeNonAscii a ++ [92, 118] ++ mstr_escape T escapeNonAscii b ∧
    mstr_escape ⟨.one, true⟩ false [65, 66, 67, 10] = [65, 66, 67, 92, 110] := by
  refine ⟨?_, ?_, ?_, ?_, ?_, ?_, ?_, ?_, ?_, ?_, by decide⟩ <;>
    rw [mstr_escape_unit_between] <;> rfl

/-- C15 fails on the code: the byte 0x0E takes the numeric-escape path and is
emitted as backslash `006`, while its three-digit octal numeral is `016`;
`mstr_oct_ch` shifts by 7 bits between digits, not by 3, so the middle digit is
bit 7 of the byte and the first digit is always `0`.  Bytes below 8, such as the
0x01 and 0x02 of the unit test, come out right. -/
theorem mstr_escape_octal_0x0E :
    mstr_escape ⟨.one, true⟩ false [0x0E] = [92, 48, 48, 54] ∧
    mstr_escape ⟨.one, false⟩ false [0x0E] = [92, 48, 48, 54] ∧
    [92] ++ specNumeral 8 3 (0x0E % 256) = [92, 48, 49, 54] ∧
    mstr_escape ⟨.one, true⟩ false [0x1F] = [92, 48, 48, 55] ∧
    [92] ++ specNumeral 8 3 (0x1F % 256) = [92, 48, 51, 55] ∧
    mstr_escape ⟨.one, true⟩ false [65, 66, 67, 1, 2]
      = [65, 66, 67] ++ ([92] ++ specNumeral 8 3 1) ++ ([92] ++ specNumeral 8 3 2) := by
  decide

/-- C16 fails on the code: the 2-byte unit 0x001F takes the numeric-escape path
and is emitted as backslash `u000F`, while its four-digit hexadecimal numeral is
`001F`, and the 4-byte unit 0x0000001F as backslash `U0000000F`; `mstr_hex_ch`
shifts by 8 bits between digits, not by 4, so only the low half of every byte
is printed.  Units below 16, such as the 0x0001 of the wide unit test, come out
right. -/
theorem mstr_escape_hex_0x1F :
    mstr_escape ⟨.two, false⟩ false [0x1F] = [92, 117, 48, 48, 48, 70] ∧
    [92, 117] ++ specNumeral 16 4 0x1F = [92, 117, 48, 48, 49, 70] ∧
    mstr_escape ⟨.four, false⟩ false [0x1F] = [92, 85, 48, 48, 48, 48, 48, 48, 48, 70] ∧
    [92, 85] ++ specNumeral 16 8 0x1F = [92, 85, 48, 48, 48, 48, 48, 48, 49, 70] ∧
    mstr_escape ⟨.two, false⟩ true [0x1234] = [92, 117, 48, 48, 50, 52] ∧
    [92, 117] ++ specNumeral 16 4 0x1234 = [92, 117, 49, 50, 51, 52] ∧
    mstr_escape ⟨.two, false⟩ false [65, 66, 67, 1]
      = [65, 66, 67] ++ ([92, 117] ++ specNumeral 16 4 1) := by
  decide

/-- C17 fails on the code where plain `char` is a signed type: without
`MSTR_ESCAPE_NON_ASCII` the byte 0x80 has the value -128, passes the test
`ch < 0x20` and is emitted as backslash `010` instead of being copied, and
likewise 0xFF as backslash `017`; DEL (0x7F) is copied.  Where `char` is unsigned
the same bytes are copied. -/
theorem mstr_escape_high_byte_signed_char :
    mstr_escape ⟨.one, true⟩ false [0x80] = [92, 48, 49, 48] ∧
    mstr_escape ⟨.one, true⟩ false [0xFF] = [92, 48, 49, 55] ∧
    mstr_escape ⟨.one, true⟩ false [0x7F] = [0x7F] ∧
    mstr_escape ⟨.one, true⟩ false [65, 66, 67] = [65, 66, 67] ∧
    mstr_escape ⟨.one, false⟩ false [0x80, 0xFF, 0x7F] = [0x80, 0xFF, 0x7F] := by
  decide

/-- C18: the value-returning `mstr_quote(src)` is a double quote, then
`mstr_escape(src)`, then a double quote; a double quote inside `src` comes out
doubled, not preceded by a backslash. -/
theorem mstr_quote_eq (T : CharT) (escapeNonAscii : Bool) (src a b : List Nat) :
    mstr_quote T escapeNonAscii src = [34] ++ mstr_escape T escapeNonAscii src ++ [34] ∧
    mstr_quote T escapeNonAscii (a ++ [34] ++ b)
      = [34] ++ (mstr_escape T escapeNonAscii a ++ [34, 34] ++ mstr_escape T escapeNonAscii b)
          ++ [34] ∧
    mstr_quote T escapeNonAscii [34] = [34, 34, 34, 34] ∧
    mstr_quote ⟨.one, true⟩ false [10] = [34, 92, 110, 34] := by
  refine ⟨?_, ?_, ?_, by decide⟩
  · simp [mstr_quote, mstr_quote_into]
  · simp only [mstr_quote, mstr_quote_into, mstr_escape_unit_between]
    rfl
  · simp only [mstr_quote, mstr_quote_into, mstr_escape_eq_flatMap]
    rfl

/-- C19: on 1-byte strings `mstr_escape` is not injective, so it has no inverse:
NUL followed by the digits `0` and `1` and the single byte 0x01 are both escaped
to backslash `001`; this holds whether `char` is signed or not and in both
builds. -/
theorem mstr_escape_not_injective (isSigned escapeNonAscii : Bool) :
    [0, 48, 49] ≠ [1] ∧
    mstr_escape ⟨.one, isSigned⟩ escapeNonAscii [0, 48, 49]
      = mstr_escape ⟨.one, isSigned⟩ escapeNonAscii [1] ∧
    ¬ Function.Injective (mstr_escape ⟨.one, isSigned⟩ escapeNonAscii) ∧
    ¬ ∃ unescape : List Nat → List Nat,
        ∀ s, unescape (mstr_escape ⟨.one, isSigned⟩ escapeNonAscii s) = s := by
  have heq : mstr_escape ⟨.one, isSigned⟩ escapeNonAscii [0, 48, 49]
      = mstr_escape ⟨.one, isSigned⟩ escapeNonAscii [1] := by
    cases isSigned <;> cases escapeNonAscii <;> decide
  refine ⟨by decide, heq, ?_, ?_⟩
  · intro hinj
    exact absurd (hinj heq) (by decide)
  · rintro ⟨g, hg⟩
    have h1 := hg [0, 48, 49]
    have h2 := hg [1]
    rw [heq, h2] at h1
    exact absurd h1 (by decide)

/-- C20: `mstr_escape` goes through its input one unit at a time: it is the
concatenation of the outputs of the single units, so the escape of `a ++ b` is
the escape of `a` followed by the escape of `b`, and the escape of the empty
string is empty. -/
theorem mstr_escape_append (T : CharT) (escapeNonAscii : Bool) (a b : List Nat) :
    mstr_escape T escapeNonAscii (a ++ b)
      = mstr_escape T escapeNonAscii a ++ mstr_escape T escapeNonAscii b ∧
    mstr_escape T escapeNonAscii [] = [] ∧
    mstr_escape T escapeNonAscii a = a.flatMap (fun ch => mstr_escape T escapeNonAscii [ch]) := by
  refine ⟨mstr_escape_append_eq T escapeNonAscii a b, rfl, ?_⟩
  have hunit : (fun ch => mstr_escape T escapeNonAscii [ch]) = escapeUnit T escapeNonAscii := by
    funext ch
    rw [mstr_escape_eq_flatMap, List.flatMap_singleton]
  rw [hunit, mstr_escape_eq_flatMap]

/-! ## Fragments and the separator; composing the trims; quoting in place -/

omit [DecidableEq α] in
theorem exists_drop_of_occurs {sep s : List α} (h : sep <:+: s) :
    ∃ p, p + sep.length ≤ s.length ∧ sep <+: s.drop p := by
  obtain ⟨a, b, hab⟩ := h
  refine ⟨a.length, ?_, b, ?_⟩
  · rw [← hab]
    simp only [List.length_append]
    omega
  · rw [← hab, List.append_assoc, List.drop_left]

theorem splitRef_no_occurrence (sep : List α) (hsep : sep ≠ []) : ∀ (n : Nat) (s : List α),
    s.length ≤ n → ∀ frag ∈ splitRef sep s, ¬ sep <:+: frag := by
  intro n
  induction n with
  | zero =>
    intro s hs frag hfrag hocc
    have hnil : s = [] := List.length_eq_zero.mp (by omega)
    subst hnil
    have hnone : findAux sep ([] : List α) 0 = none := by simp [findAux, hsep]
    rw [splitRef_none hnone, List.mem_singleton] at hfrag
    subst hfrag
    obtain ⟨p, -, hp⟩ := exists_drop_of_occurs hocc
    exact findAux_none hnone p hp
  | succ n ih =>
    intro s hs frag hfrag hocc
    have hpos : 0 < sep.length := List.length_pos.mpr hsep
    cases hfind : findAux sep s 0 with
    | none =>
      rw [splitRef_none hfind, List.mem_singleton] at hfrag
      subst hfrag
      obtain ⟨p, -, hp⟩ := exists_drop_of_occurs hocc
      exact findAux_none hfind p hp
    | some d =>
      obtain ⟨hlen, -, hmin⟩ := findAux_zero_some hfind
      rw [splitRef_some hsep hfind, List.mem_cons] at hfrag
      rcases hfrag with rfl | hrest
      · obtain ⟨p, hp, ⟨t, ht⟩⟩ := exists_drop_of_occurs hocc
        have hd : (s.take d).length = d := by
          rw [List.length_take]
          omega
        rw [hd] at hp
        apply hmin p (by omega)
        refine ⟨t ++ s.drop d, ?_⟩
        rw [← List.append_assoc, ht]
        conv_rhs => rw [← List.take_append_drop d s]
        rw [List.drop_append_of_le_length (by omega)]
      · exact ih (s.drop (d + sep.length)) (by simp only [List.length_drop]; omega)
          frag hrest hocc

theorem findAux_unit_absent (c : α) : ∀ (x : List α) (k : Nat),
    c ∉ x → findAux [c] x k = none := by
  intro x
  induction x with
  | nil => intro k _; simp [findAux]
  | cons a as ih =>
    intro k hc
    have ha : c ≠ a := fun h => hc (by simp [h])
    have has : c ∉ as := fun h => hc (List.mem_cons_of_mem _ h)
    simp [findAux, List.isPrefixOf, ha, ih (k + 1) has]

theorem findAux_unit_first (c : α) (rest : List α) : ∀ (x : List α) (k : Nat),
    c ∉ x → findAux [c] (x ++ c :: rest) k = some (k + x.length) := by
  intro x
  induction x with
  | nil => intro k _; simp [findAux, List.isPrefixOf]
  | cons a as ih =>
    intro k hc
    have ha : c ≠ a := fun h => hc (by simp [h])
    have has : c ∉ as := fun h => hc (List.mem_cons_of_mem _ h)
    rw [List.cons_append, findAux, ih (k + 1) has]
    simp [List.isPrefixOf, ha]
    omega

theorem splitRef_join_unit (c : α) : ∀ (frags : List (List α)),
    frags ≠ [] → (∀ f ∈ frags, c ∉ f) → splitRef [c] (mstr_join frags [c]) = frags := by
  intro frags
  induction frags with
  | nil => intro h; exact absurd rfl h
  | cons x xs ih =>
    intro _ hc
    have hx : c ∉ x := hc x (List.mem_cons_self _ _)
    cases xs with
    | nil =>
      have hj : mstr_join [x] [c] = x := rfl
      rw [hj, splitRef_none (findAux_unit_absent c x 0 hx)]
    | cons y ys =>
      have hrec := ih (by simp) (fun f hf => hc f (List.mem_cons_of_mem _ hf))
      rw [mstr_join_cons_cons]
      have hfind : findAux [c] (x ++ [c] ++ mstr_join (y :: ys) [c]) 0 = some x.length := by
        have := findAux_unit_first c (mstr_join (y :: ys) [c]) x 0 hx
        simpa using this
      rw [splitRef_some (by simp) hfind]
      have htake : (x ++ [c] ++ mstr_join (y :: ys) [c]).take x.length = x := by
        rw [List.append_assoc, List.take_left]
      have hdrop : (x ++ [c] ++ mstr_join (y :: ys) [c]).drop (x.length + [c].length)
          = mstr_join (y :: ys) [c] := by
        have hl : x.length + [c].length = (x ++ [c]).length := by simp
        rw [hl, List.drop_left]
      rw [htake, hdrop, hrec]

omit [DecidableEq α] in
theorem dropWhile_rdropWhile_comm (p : α → Bool) (S : List α) :
    (S.rdropWhile p).dropWhile p = (S.dropWhile p).rdropWhile p := by
  by_cases hdw : S.dropWhile p = []
  · have hall : ∀ x ∈ S, p x = true := List.dropWhile_eq_nil_iff.mp hdw
    have hr : S.rdropWhile p = [] := List.rdropWhile_eq_nil_iff.mpr hall
    rw [hdw, hr]
    simp
  · have hrne := rdropWhile_dropWhile_ne_nil p S hdw
    have hsplit : S.rdropWhile p = S.takeWhile p ++ (S.dropWhile p).rdropWhile p := by
      conv_lhs => rw [← List.takeWhile_append_dropWhile p S]
      exact rdropWhile_append_of_ne_nil p _ _ hrne
    rw [hsplit, List.dropWhile_append_of_pos (fun a ha => List.mem_takeWhile_imp ha),
      dropWhile_rdropWhile_dropWhile]

/-- C21: for a non-empty separator, `mstr_split` returns and none of the
fragments it returns contains the separator as a contiguous sub-sequence. -/
theorem mstr_split_fragments_free_of_sep (noSpecialHandling : Bool) (fuel : Nat)
    (container : List (List α)) (S sep : List α) (hsep : sep ≠ []) (hfuel : S.length < fuel) :
    ∃ frags, mstr_split noSpecialHandling fuel container S sep = some (frags, frags.length) ∧
      ∀ frag ∈ frags, ¬ sep <:+: frag :=
  ⟨splitRef sep S, mstr_split_eq noSpecialHandling fuel container S sep hsep hfuel,
    splitRef_no_occurrence sep hsep S.length S (Nat.le_refl _)⟩

/-- Witness for C21: `A<>B<>C<>` split at `<>` gives `A`, `B`, `C` and the empty
fragment, none of which contains `<>`. -/
theorem mstr_split_fragments_free_of_sep_witness :
    (['<', '>'] ≠ ([] : List Char) ∧
      ['A', '<', '>', 'B', '<', '>', 'C', '<', '>'].length < 10) ∧
    mstr_split false 10 [] ['A', '<', '>', 'B', '<', '>', 'C', '<', '>'] ['<', '>']
      = some ([['A'], ['B'], ['C'], []], 4) ∧
    ∃ frags, mstr_split false 10 [] ['A', '<', '>', 'B', '<', '>', 'C', '<', '>'] ['<', '>']
        = some (frags, frags.length) ∧
      ∀ frag ∈ frags, ¬ ['<', '>'] <:+: frag :=
  ⟨⟨by decide, by decide⟩, by decide,
    mstr_split_fragments_free_of_sep false 10 []
      ['A', '<', '>', 'B', '<', '>', 'C', '<', '>'] ['<', '>'] (by decide) (by decide)⟩

/-- C22: for a one-unit separator `c` and a non-empty list of fragments none of
which contains `c`, splitting the join of the fragments at `c` returns exactly
those fragments, with count their number. -/
theorem mstr_split_join_unit (noSpecialHandling : Bool) (fuel : Nat)
    (container : List (List α)) (c : α) (frags : List (List α)) (hne : frags ≠ [])
    (hc : ∀ f ∈ frags, c ∉ f) (hfuel : (mstr_join frags [c]).length < fuel) :
    mstr_split noSpecialHandling fuel container (mstr_join frags [c]) [c]
      = some (frags, frags.length) := by
  rw [mstr_split_eq noSpecialHandling fuel container _ [c] (by simp) hfuel,
    splitRef_join_unit c frags hne hc]

/-- Witness for C22: the fragments `A`, the empty one and `BC`, joined with `|`
to `A||BC`, come back from the split at `|`. -/
theorem mstr_split_join_unit_witness :
    ([['A'], [], ['B', 'C']] ≠ ([] : List (List Char)) ∧
      (∀ f ∈ [['A'], [], ['B', 'C']], '|' ∉ f) ∧
      (mstr_join [['A'], [], ['B', 'C']] ['|']).length < 6) ∧
    mstr_join [['A'], [], ['B', 'C']] ['|'] = ['A', '|', '|', 'B', 'C'] ∧
    mstr_split false 6 [] (mstr_join [['A'], [], ['B', 'C']] ['|']) ['|']
      = some ([['A'], [], ['B', 'C']], [['A'], [], ['B', 'C']].length) :=
  ⟨⟨by decide, by decide, by decide⟩, by decide,
    mstr_split_join_unit false 6 [] '|' [['A'], [], ['B', 'C']] (by decide) (by decide)
      (by decide)⟩

/-- C23: trimming both ends is trimming one end and then the other, in either
order. -/
theorem mstr_trim_eq_compose (S C : List α) :
    mstr_trim S C = mstr_trim_left (mstr_trim_right S C) C ∧
    mstr_trim S C = mstr_trim_right (mstr_trim_left S C) C := by
  refine ⟨?_, ?_⟩
  · rw [mstr_trim_eq, mstr_trim_left_eq, mstr_trim_right_eq, dropWhile_rdropWhile_comm]
  · rw [mstr_trim_eq, mstr_trim_right_eq, mstr_trim_left_eq]

/-- C24: the two-argument `mstr_quote(dest, str)` keeps what `dest` held and
appends a double quote, `mstr_escape(str)` and a double quote to it, so the
previous content is a prefix of the result; the two-argument
`mstr_escape(ret, src)` gives the escape of `src` whatever `ret` held. -/
theorem mstr_quote_into_appends (T : CharT) (escapeNonAscii : Bool) (d str ret : List Nat) :
    mstr_quote_into T escapeNonAscii d str
      = d ++ [34] ++ mstr_escape T escapeNonAscii str ++ [34] ∧
    d <+: mstr_quote_into T escapeNonAscii d str ∧
    mstr_quote_into T escapeNonAscii d str = d ++ mstr_quote T escapeNonAscii str ∧
    mstr_escape_into T escapeNonAscii ret str = mstr_escape T escapeNonAscii str ∧
    mstr_quote_into ⟨.one, true⟩ false [120] [10] = [120, 34, 92, 110, 34] ∧
    mstr_escape_into ⟨.one, true⟩ false [120] [10] = [92, 110] := by
  refine ⟨rfl, ?_, ?_, rfl, by decide, by decide⟩
  · refine ⟨[34] ++ mstr_escape T escapeNonAscii str ++ [34], ?_⟩
    simp [mstr_quote_into, List.append_assoc]
  · simp [mstr_quote, mstr_quote_into, List.append_assoc]

end Mstr
